import Mathlib

/-!
Shallow embedding of the live-caption rendering engine
(`src/utils/text-wrapping/TranscriptProcessor.ts`, `src/utils/languageLocale.ts`
and the session logic of `src/index.ts`), together with proofs of the
specification's testable properties.

Strings are modelled as lists of characters.  The external jieba word
segmenter used by `findChineseWordBoundary` is abstracted as a function
argument `cut`; every theorem about the Chinese path quantifies over it or
instantiates it with an explicit segmentation.
-/

set_option autoImplicit false

namespace LiveCaptions

/-- Strings of the JavaScript source are modelled as lists of characters. -/
abbrev Str := List Char

/-- Whitespace characters removed by JavaScript `String.prototype.trim`
(restricted to the ASCII whitespace that can occur in transcript text). -/
def isWS (c : Char) : Bool :=
  c = ' ' || c = '\t' || c = '\n' || c = '\r'

/-- JavaScript `String.prototype.trim`: remove whitespace from both ends. -/
def jsTrim (s : Str) : Str :=
  ((s.dropWhile isWS).reverse.dropWhile isWS).reverse

/-- JavaScript `String.prototype.charAt(i)`, viewed as an optional character
(`none` models the empty string returned out of range). -/
def jsCharAt (s : Str) (i : Nat) : Option Char := s[i]?

/-- JavaScript `Array.prototype.join(sep)` for a one-character separator. -/
def joinSep (sep : Char) : List Str → Str
  | [] => []
  | [l] => l
  | l :: l2 :: ls => l ++ sep :: joinSep sep (l2 :: ls)

/-- JavaScript `String.prototype.split(sep)` for a one-character separator;
splitting the empty string yields `[""]`, and the result is never empty. -/
def jsSplit (sep : Char) : Str → List Str
  | [] => [[]]
  | c :: cs =>
    match jsSplit sep cs with
    | [] => [[]]
    | r :: rs => if c = sep then [] :: r :: rs else (c :: r) :: rs

/-- Loop `while (arr.length > m) arr.shift()`: drop oldest (front) entries
until at most `m` remain.  Used both for the display lines and for the
transcript history in `TranscriptProcessor.ts`.  Written structurally on the
list (each `shift()` removes the head, so the loop runs down the list). -/
def shiftWhileExceeds {α : Type} (m : Nat) : List α → List α
  | [] => []
  | a :: as => if (a :: as).length > m then shiftWhileExceeds m as else a :: as

/-- Loop `while (lines.length < maxLines) lines.push("")`: the loop body runs
once per missing line, so it is the `maxLines - lines.length`-fold push of the
empty string. -/
def padGo : Nat → List Str → List Str
  | 0, l => l
  | k + 1, l => padGo k (l ++ [[]])

/-- Loop `while (lines.length < maxLines) lines.push("")`: pad with empty
strings appended at the end. -/
def padLines (maxLines : Nat) (l : List Str) : List Str :=
  padGo (maxLines - l.length) l

/-- Characters matched by the regex `/[一-龥]/` of `isChinese` in
`languageLocale.ts`. -/
def isChineseChar (c : Char) : Bool :=
  0x4e00 ≤ c.toNat && c.toNat ≤ 0x9fa5

/-- Function `isChinese(text)` of `languageLocale.ts`: the text contains at
least one Chinese character. -/
def isChineseText (s : Str) : Bool := s.any isChineseChar

/-- Word-scanning loop of `findChineseWordBoundary`: accumulate word lengths
until the next word would cross `position`. -/
def boundaryLoop (position : Nat) : List Str → Nat → Nat
  | [], _ => position
  | w :: ws, currentLength =>
    if currentLength + w.length > position then currentLength
    else boundaryLoop position ws (currentLength + w.length)

/-- Function `findChineseWordBoundary(text, position)` of `languageLocale.ts`;
the external jieba segmenter `jieba.cut` is abstracted as `cut`. -/
def findChineseWordBoundary (cut : Str → List Str) (text : Str) (position : Nat) : Nat :=
  if ¬ isChineseText text then position
  else boundaryLoop position (cut text) 0

/-- Loop `while (splitIndex > 0 && text.charAt(splitIndex) !== " ")
splitIndex--` of `wrapText`: the largest index at or below the start that
points at a space, else 0. -/
def spaceScan (text : Str) : Nat → Nat
  | 0 => 0
  | i + 1 => if jsCharAt text (i + 1) = some ' ' then i + 1 else spaceScan text i

/-- Method `TranscriptProcessor.wrapText`.  The source's `while` loop need not
terminate (the Chinese branch can make no progress when a segmented word is
longer than the width), so the recursion carries explicit fuel; `none` means
the loop was still running when the fuel ran out.  Fuel `text.length + 1`
suffices whenever the loop terminates, because every iteration that makes
progress removes at least one character. -/
def wrapTextFuel (isCh : Bool) (cut : Str → List Str) (maxLineLength : Nat) :
    Nat → Str → Option (List Str)
  | 0, _ => none
  | fuel + 1, text =>
    if text = [] then some []
    else if text.length ≤ maxLineLength then some [text]
    else
      let splitIndex :=
        if isCh then findChineseWordBoundary cut text maxLineLength
        else
          let s := spaceScan text maxLineLength
          if s = 0 then maxLineLength else s
      let chunk := jsTrim (text.take splitIndex)
      match wrapTextFuel isCh cut maxLineLength fuel (jsTrim (text.drop splitIndex)) with
      | none => none
      | some rest => some (chunk :: rest)

/-- Method `TranscriptProcessor.addToTranscriptHistory`: skip blank
transcripts, append, evict oldest entries beyond the capacity. -/
def addToTranscriptHistory (maxFinalTranscripts : Nat) (history : List Str)
    (transcript : Str) : List Str :=
  if jsTrim transcript = [] then history
  else shiftWhileExceeds maxFinalTranscripts (history ++ [transcript])

/-- Effect of `TranscriptProcessor.setMaxFinalTranscripts` on the stored
history: trim oldest entries down to the new capacity. -/
def setMaxFinalTranscriptsHistory (maxFinalTranscripts : Nat) (history : List Str) : List Str :=
  shiftWhileExceeds maxFinalTranscripts history

/-- Method `TranscriptProcessor.getCombinedTranscriptHistory`: join all
entries with a single space. -/
def getCombinedTranscriptHistory (history : List Str) : Str :=
  joinSep ' ' history

/-- Mutable fields and configuration of a `TranscriptProcessor`. -/
structure ProcState where
  maxCharsPerLine : Nat
  maxLines : Nat
  maxFinalTranscripts : Nat
  isChinese : Bool
  lines : List Str
  partialText : Str
  lastUserTranscript : Str
  finalTranscriptHistory : List Str
  currentDisplayLines : List Str
deriving DecidableEq

/-- The `TranscriptProcessor` constructor. -/
def initProcessor (maxCharsPerLine maxLines maxFinalTranscripts : Nat)
    (isChinese : Bool) : ProcState :=
  { maxCharsPerLine := maxCharsPerLine
    maxLines := maxLines
    maxFinalTranscripts := maxFinalTranscripts
    isChinese := isChinese
    lines := []
    partialText := []
    lastUserTranscript := []
    finalTranscriptHistory := []
    currentDisplayLines := [] }

/-- Pair of `while` loops in `processString` that force the display to
`maxLines` lines: pad with empty strings at the back, then shift overflow off
the front. -/
def ensureMaxLines (maxLines : Nat) (l : List Str) : List Str :=
  shiftWhileExceeds maxLines (padLines maxLines l)

/-- Method `TranscriptProcessor.processString`.  Input `none` models a `null`
text argument.  Result `none` models non-termination of the inner `wrapText`
loop (see `wrapTextFuel`). -/
def processString (cut : Str → List Str) (st : ProcState)
    (newTextIn : Option Str) (isFinal : Bool) : Option (ProcState × Str) :=
  let newText := match newTextIn with | none => [] | some s => jsTrim s
  if ¬ isFinal then
    let combinedText :=
      getCombinedTranscriptHistory st.finalTranscriptHistory ++ ' ' :: newText
    match wrapTextFuel st.isChinese cut st.maxCharsPerLine
        (combinedText.length + 1) combinedText with
    | none => none
    | some wrapped =>
      let display := ensureMaxLines st.maxLines wrapped
      some ({ st with partialText := newText
                      lastUserTranscript := newText
                      currentDisplayLines := display },
            joinSep '\n' display)
  else
    let newHistory :=
      addToTranscriptHistory st.maxFinalTranscripts st.finalTranscriptHistory newText
    let combinedText := getCombinedTranscriptHistory newHistory
    match wrapTextFuel st.isChinese cut st.maxCharsPerLine
        (combinedText.length + 1) combinedText with
    | none => none
    | some wrapped =>
      let display := ensureMaxLines st.maxLines wrapped
      some ({ st with partialText := []
                      finalTranscriptHistory := newHistory
                      currentDisplayLines := display },
            joinSep '\n' display)

/-- Punctuation stripped from the front by `cleanTranscriptText` in
`index.ts` (the regex `/^[.,;:!?。，；：！？]+/`). -/
def isLeadingPunct (c : Char) : Bool :=
  c = '.' || c = ',' || c = ';' || c = ':' || c = '!' || c = '?' ||
  c = '。' || c = '，' || c = '；' || c = '：' || c = '！' || c = '？'

/-- Method `cleanTranscriptText` of `index.ts`: strip leading punctuation,
then trim surrounding whitespace. -/
def cleanTranscriptText (s : Str) : Str :=
  jsTrim (s.dropWhile isLeadingPunct)

/-- Method `showTranscriptsToUser` of `index.ts`: the string actually handed
to the display sink (`session.layouts.showTextWall`). -/
def showTranscriptsToUser (transcript : Str) : Str :=
  cleanTranscriptText transcript

/-- Method `TranscriptProcessor.clear`. -/
def clearProcessor (st : ProcState) : ProcState :=
  { st with lines := []
            partialText := []
            finalTranscriptHistory := [] }

/-- Inactivity-timer callback of `resetInactivityTimer` in `index.ts`: clear
the processor and call `showTextWall("")`.  Returns the new processor state
and the string emitted to the display sink. -/
def inactivityFire (st : ProcState) : ProcState × Str :=
  (clearProcessor st, [])

/-- Per-session debouncer state of `index.ts`: the time of the last emission
and the pending trailing-edge timer, carried as its fire time and the
transcript it will show. -/
structure Debouncer where
  lastSentTime : Nat
  timer : Option (Nat × Str)
deriving DecidableEq

/-- Fixed `debounceDelay` of `debounceAndShowTranscript` (milliseconds). -/
def debounceDelay : Nat := 400

/-- Method `debounceAndShowTranscript` invoked at time `now`: clear any
scheduled timer, emit finals immediately, throttle non-finals.  Returns the
updated debouncer and the transcript emitted immediately, if any. -/
def debounceStep (now : Nat) (transcript : Str) (isFinal : Bool)
    (d : Debouncer) : Debouncer × Option Str :=
  let d1 : Debouncer := { d with timer := none }
  if isFinal then
    ({ d1 with lastSentTime := now }, some transcript)
  else if debounceDelay ≤ now - d1.lastSentTime then
    ({ d1 with lastSentTime := now }, some transcript)
  else
    ({ d1 with timer := some (now + debounceDelay, transcript) }, none)

/-- Trailing-edge timer callback firing at its scheduled time: emit the stored
transcript and record the emission time. -/
def fireTimer (d : Debouncer) : Debouncer × Option Str :=
  match d.timer with
  | none => (d, none)
  | some (fireTime, transcript) =>
    ({ lastSentTime := fireTime, timer := none }, some transcript)

/-- Constant `MAX_FINAL_TRANSCRIPTS` of `index.ts`. -/
def MAX_FINAL_TRANSCRIPTS : Nat := 30

/-- Replay loop of `applySettings`: feed each preserved history entry to the
new processor as a final transcript, discarding the formatted output. -/
def replayHistory (cut : Str → List Str) : ProcState → List Str → Option ProcState
  | st, [] => some st
  | st, t :: ts =>
    match processString cut st (some t) true with
    | none => none
    | some (st2, _) => replayHistory cut st2 ts

/-- Method `applySettings` of `index.ts`, from the point where the new
processor is created: build a fresh processor from the settings, replay the
previous history unless the language changed, then emit the recomputed display
as a final update.  The result carries the new processor state, the string
handed to the display sink, and the final flag of that emission. -/
def applySettings (cut : Str → List Str) (languageChanged : Bool)
    (prev : Option ProcState) (lineWidth numberOfLines : Nat)
    (isChineseLanguage : Bool) : Option (ProcState × Str × Bool) :=
  let fresh := initProcessor lineWidth numberOfLines MAX_FINAL_TRANSCRIPTS isChineseLanguage
  let replayed :=
    match prev, languageChanged with
    | some p, false => replayHistory cut fresh p.finalTranscriptHistory
    | _, _ => some fresh
  match replayed with
  | none => none
  | some proc =>
    match processString cut proc (some []) true with
    | none => none
    | some (procFinal, formatted) =>
      some (procFinal, showTranscriptsToUser formatted, true)

/-- JavaScript value reaching `processString` as its text argument: a string,
`null`, or `undefined`. -/
inductive JSText where
  | jsNull : JSText
  | jsUndefined : JSText
  | jsStr : Str → JSText
deriving DecidableEq

/-- Entry of `processString` as executed by JavaScript: the guard
`newText === null` maps `null` to `""` and otherwise calls `newText.trim()`,
which on `undefined` throws a `TypeError`, modelled as `Except.error`. -/
def processStringJS (cut : Str → List Str) (st : ProcState)
    (newTextIn : JSText) (isFinal : Bool) : Except Str (Option (ProcState × Str)) :=
  match newTextIn with
  | JSText.jsUndefined => Except.error ("TypeError".toList)
  | JSText.jsNull => Except.ok (processString cut st none isFinal)
  | JSText.jsStr s => Except.ok (processString cut st (some s) isFinal)

/-! ### Basic lemmas about the string primitives -/

theorem mem_dropWhile {p : Char → Bool} :
    ∀ {s : Str} {c : Char}, c ∈ s.dropWhile p → c ∈ s := by
  intro s
  induction s with
  | nil => intro c h; simp at h
  | cons a as ih =>
    intro c h
    rw [List.dropWhile_cons] at h
    by_cases hp : p a = true
    · simp only [hp, if_true] at h
      exact List.mem_cons_of_mem a (ih h)
    · simp only [hp, if_false] at h
      exact h

theorem length_dropWhile_le (p : Char → Bool) :
    ∀ (s : Str), (s.dropWhile p).length ≤ s.length := by
  intro s
  induction s with
  | nil => simp
  | cons a as ih =>
    rw [List.dropWhile_cons]
    by_cases hp : p a = true
    · simp only [hp, if_true]
      exact Nat.le_succ_of_le ih
    · simp [hp]

theorem mem_jsTrim {s : Str} {c : Char} (h : c ∈ jsTrim s) : c ∈ s := by
  unfold jsTrim at h
  rw [List.mem_reverse] at h
  have h2 := mem_dropWhile h
  rw [List.mem_reverse] at h2
  exact mem_dropWhile h2

theorem jsTrim_length_le (s : Str) : (jsTrim s).length ≤ s.length := by
  unfold jsTrim
  calc ((s.dropWhile isWS).reverse.dropWhile isWS).reverse.length
      = ((s.dropWhile isWS).reverse.dropWhile isWS).length := List.length_reverse _
    _ ≤ (s.dropWhile isWS).reverse.length := length_dropWhile_le _ _
    _ = (s.dropWhile isWS).length := List.length_reverse _
    _ ≤ s.length := length_dropWhile_le _ _

theorem jsTrim_nil : jsTrim [] = [] := rfl

/-! ### Closed forms for the shift and pad loops -/

theorem shiftWhileExceeds_eq_drop {α : Type} (m : Nat) :
    ∀ (l : List α), shiftWhileExceeds m l = l.drop (l.length - m) := by
  intro l
  induction l with
  | nil => simp [shiftWhileExceeds]
  | cons a as ih =>
    unfold shiftWhileExceeds
    by_cases hlen : (a :: as).length > m
    · rw [if_pos hlen, ih]
      have h1 : (a :: as).length - m = (as.length - m) + 1 := by
        simp only [List.length_cons] at hlen ⊢
        omega
      rw [h1, List.drop_succ_cons]
    · rw [if_neg hlen]
      have h1 : (a :: as).length - m = 0 := by
        simp only [List.length_cons] at hlen ⊢
        omega
      rw [h1, List.drop_zero]

theorem shiftWhileExceeds_of_le {α : Type} (m : Nat) (l : List α)
    (h : l.length ≤ m) : shiftWhileExceeds m l = l := by
  rw [shiftWhileExceeds_eq_drop]
  have h1 : l.length - m = 0 := by omega
  rw [h1, List.drop_zero]

theorem length_shiftWhileExceeds {α : Type} (m : Nat) (l : List α) :
    (shiftWhileExceeds m l).length = min m l.length := by
  rw [shiftWhileExceeds_eq_drop, List.length_drop]
  omega

theorem padGo_eq : ∀ (k : Nat) (l : List Str),
    padGo k l = l ++ List.replicate k [] := by
  intro k
  induction k with
  | zero => intro l; simp [padGo]
  | succ k ih =>
    intro l
    unfold padGo
    rw [ih (l ++ [[]])]
    simp [List.replicate_succ]

theorem padLines_eq (m : Nat) (l : List Str) :
    padLines m l = l ++ List.replicate (m - l.length) [] :=
  padGo_eq (m - l.length) l

theorem length_padLines (m : Nat) (l : List Str) :
    (padLines m l).length = max m l.length := by
  rw [padLines_eq, List.length_append, List.length_replicate]
  omega

theorem length_ensureMaxLines (m : Nat) (l : List Str) :
    (ensureMaxLines m l).length = m := by
  unfold ensureMaxLines
  rw [length_shiftWhileExceeds, length_padLines]
  omega

theorem mem_ensureMaxLines {m : Nat} {l : List Str} {x : Str}
    (h : x ∈ ensureMaxLines m l) : x ∈ l ∨ x = [] := by
  unfold ensureMaxLines at h
  rw [shiftWhileExceeds_eq_drop] at h
  have h1 : x ∈ padLines m l := List.mem_of_mem_drop h
  rw [padLines_eq] at h1
  rcases List.mem_append.mp h1 with h2 | h2
  · exact Or.inl h2
  · exact Or.inr (List.eq_of_mem_replicate h2)

/-! ### Join and split -/

theorem mem_joinSep (sep : Char) :
    ∀ (ls : List Str) (c : Char), c ∈ joinSep sep ls →
      c = sep ∨ ∃ l, l ∈ ls ∧ c ∈ l := by
  intro ls
  induction ls with
  | nil => intro c h; simp [joinSep] at h
  | cons l ls ih =>
    intro c h
    cases ls with
    | nil =>
      simp only [joinSep] at h
      exact Or.inr ⟨l, List.mem_singleton_self l, h⟩
    | cons l2 ls2 =>
      simp only [joinSep] at h
      rcases List.mem_append.mp h with h1 | h1
      · exact Or.inr ⟨l, List.mem_cons_self l _, h1⟩
      · rcases List.mem_cons.mp h1 with h2 | h2
        · exact Or.inl h2
        · rcases ih c h2 with h3 | ⟨l3, h4, h5⟩
          · exact Or.inl h3
          · exact Or.inr ⟨l3, List.mem_cons_of_mem l h4, h5⟩

theorem jsSplit_cons (sep c : Char) (cs : Str) :
    jsSplit sep (c :: cs) =
      match jsSplit sep cs with
      | [] => [[]]
      | r :: rs => if c = sep then [] :: r :: rs else (c :: r) :: rs := rfl

theorem jsSplit_ne_nil (sep : Char) : ∀ (s : Str), jsSplit sep s ≠ [] := by
  intro s
  induction s with
  | nil => simp [jsSplit]
  | cons c cs ih =>
    unfold jsSplit
    cases h : jsSplit sep cs with
    | nil => exact absurd h ih
    | cons r rs =>
      by_cases hc : c = sep
      · simp [hc]
      · simp [hc]

theorem jsSplit_no_sep (sep : Char) :
    ∀ (l : Str), sep ∉ l → jsSplit sep l = [l] := by
  intro l
  induction l with
  | nil => intro _; rfl
  | cons c cs ih =>
    intro h
    have hc : c ≠ sep := fun he => h (he ▸ List.mem_cons_self c cs)
    have hcs : sep ∉ cs := fun he => h (List.mem_cons_of_mem c he)
    unfold jsSplit
    rw [ih hcs]
    simp [hc]

theorem jsSplit_append_sep (sep : Char) :
    ∀ (l rest : Str), sep ∉ l →
      jsSplit sep (l ++ sep :: rest) = l :: jsSplit sep rest := by
  intro l
  induction l with
  | nil =>
    intro rest _
    simp only [List.nil_append]
    rw [jsSplit_cons]
    cases h : jsSplit sep rest with
    | nil => exact absurd h (jsSplit_ne_nil sep rest)
    | cons r rs => simp
  | cons c cs ih =>
    intro rest h
    have hc : c ≠ sep := fun he => h (he ▸ List.mem_cons_self c cs)
    have hcs : sep ∉ cs := fun he => h (List.mem_cons_of_mem c he)
    simp only [List.cons_append]
    rw [jsSplit_cons, ih rest hcs]
    simp [hc]

theorem jsSplit_joinSep (sep : Char) :
    ∀ (ls : List Str), ls ≠ [] → (∀ l ∈ ls, sep ∉ l) →
      jsSplit sep (joinSep sep ls) = ls := by
  intro ls
  induction ls with
  | nil => intro h; exact absurd rfl h
  | cons l ls ih =>
    intro _ hns
    cases ls with
    | nil =>
      simp only [joinSep]
      exact jsSplit_no_sep sep l (hns l (List.mem_singleton_self l))
    | cons l2 ls2 =>
      simp only [joinSep]
      rw [jsSplit_append_sep sep l _ (hns l (List.mem_cons_self l _))]
      rw [ih (by simp) (fun a ha => hns a (List.mem_cons_of_mem l ha))]

/-! ### Bounds on the split index -/

theorem boundaryLoop_le (position : Nat) :
    ∀ (ws : List Str) (curr : Nat), curr ≤ position →
      boundaryLoop position ws curr ≤ position := by
  intro ws
  induction ws with
  | nil => intro curr _; simp [boundaryLoop]
  | cons w ws ih =>
    intro curr hc
    unfold boundaryLoop
    by_cases hgt : curr + w.length > position
    · rw [if_pos hgt]; exact hc
    · rw [if_neg hgt]; exact ih (curr + w.length) (by omega)

theorem findChineseWordBoundary_le (cut : Str → List Str) (text : Str)
    (position : Nat) : findChineseWordBoundary cut text position ≤ position := by
  unfold findChineseWordBoundary
  by_cases h : isChineseText text
  · rw [if_neg (by simp [h])]
    exact boundaryLoop_le position (cut text) 0 (Nat.zero_le _)
  · rw [if_pos (by simp [h])]

theorem spaceScan_le (text : Str) : ∀ (i : Nat), spaceScan text i ≤ i := by
  intro i
  induction i with
  | zero => simp [spaceScan]
  | succ i ih =>
    unfold spaceScan
    by_cases h : jsCharAt text (i + 1) = some ' '
    · rw [if_pos h]
    · rw [if_neg h]; exact Nat.le_succ_of_le ih

/-! ### Properties of the wrapping loop -/

theorem wrapTextFuel_width_le (isCh : Bool) (cut : Str → List Str)
    (maxLen : Nat) : ∀ (fuel : Nat) (text : Str) (r : List Str),
      wrapTextFuel isCh cut maxLen fuel text = some r →
      ∀ l ∈ r, l.length ≤ maxLen := by
  intro fuel
  induction fuel with
  | zero => intro text r h; simp [wrapTextFuel] at h
  | succ n ih =>
    intro text r h
    unfold wrapTextFuel at h
    by_cases hnil : text = []
    · rw [if_pos hnil] at h
      cases h
      intro l hl
      simp at hl
    · rw [if_neg hnil] at h
      by_cases hle : text.length ≤ maxLen
      · rw [if_pos hle] at h
        cases h
        intro l hl
        rw [List.mem_singleton] at hl
        exact hl ▸ hle
      · rw [if_neg hle] at h
        simp only at h
        cases hw : wrapTextFuel isCh cut maxLen n
            (jsTrim (text.drop (if isCh then findChineseWordBoundary cut text maxLen
              else if spaceScan text maxLen = 0 then maxLen else spaceScan text maxLen))) with
        | none => rw [hw] at h; cases h
        | some rest =>
          rw [hw] at h
          cases h
          intro l hl
          rcases List.mem_cons.mp hl with h1 | h1
          · subst h1
            have hsi : (if isCh then findChineseWordBoundary cut text maxLen
                else if spaceScan text maxLen = 0 then maxLen
                else spaceScan text maxLen) ≤ maxLen := by
              by_cases hch : isCh
              · simp only [hch, if_true]
                exact findChineseWordBoundary_le cut text maxLen
              · simp only [hch, if_false]
                by_cases hs : spaceScan text maxLen = 0
                · simp [hs]
                · simp only [hs, if_false]
                  exact spaceScan_le text maxLen
            calc (jsTrim (text.take _)).length
                ≤ (text.take _).length := jsTrim_length_le _
              _ ≤ _ := by rw [List.length_take]; omega
          · exact ih _ rest hw l h1

theorem wrapTextFuel_chars (isCh : Bool) (cut : Str → List Str)
    (maxLen : Nat) : ∀ (fuel : Nat) (text : Str) (r : List Str),
      wrapTextFuel isCh cut maxLen fuel text = some r →
      ∀ l ∈ r, ∀ c ∈ l, c ∈ text := by
  intro fuel
  induction fuel with
  | zero => intro text r h; simp [wrapTextFuel] at h
  | succ n ih =>
    intro text r h
    unfold wrapTextFuel at h
    by_cases hnil : text = []
    · rw [if_pos hnil] at h
      cases h
      intro l hl
      simp at hl
    · rw [if_neg hnil] at h
      by_cases hle : text.length ≤ maxLen
      · rw [if_pos hle] at h
        cases h
        intro l hl
        rw [List.mem_singleton] at hl
        intro c hc
        exact hl ▸ hc
      · rw [if_neg hle] at h
        simp only at h
        cases hw : wrapTextFuel isCh cut maxLen n
            (jsTrim (text.drop (if isCh then findChineseWordBoundary cut text maxLen
              else if spaceScan text maxLen = 0 then maxLen else spaceScan text maxLen))) with
        | none => rw [hw] at h; cases h
        | some rest =>
          rw [hw] at h
          cases h
          intro l hl
          rcases List.mem_cons.mp hl with h1 | h1
          · subst h1
            intro c hc
            exact List.mem_of_mem_take (mem_jsTrim hc)
          · intro c hc
            exact List.mem_of_mem_drop (mem_jsTrim (ih _ rest hw l h1 c hc))

theorem wrapTextFuel_mono_succ (isCh : Bool) (cut : Str → List Str)
    (maxLen : Nat) : ∀ (fuel : Nat) (text : Str) (r : List Str),
      wrapTextFuel isCh cut maxLen fuel text = some r →
      wrapTextFuel isCh cut maxLen (fuel + 1) text = some r := by
  intro fuel
  induction fuel with
  | zero => intro text r h; simp [wrapTextFuel] at h
  | succ n ih =>
    intro text r h
    unfold wrapTextFuel at h ⊢
    by_cases hnil : text = []
    · rw [if_pos hnil] at h ⊢; exact h
    · rw [if_neg hnil] at h ⊢
      by_cases hle : text.length ≤ maxLen
      · rw [if_pos hle] at h ⊢; exact h
      · rw [if_neg hle] at h ⊢
        simp only at h ⊢
        cases hw : wrapTextFuel isCh cut maxLen n
            (jsTrim (text.drop (if isCh then findChineseWordBoundary cut text maxLen
              else if spaceScan text maxLen = 0 then maxLen else spaceScan text maxLen))) with
        | none => rw [hw] at h; cases h
        | some rest =>
          rw [hw] at h
          rw [ih _ rest hw]
          exact h

theorem wrapTextFuel_mono (isCh : Bool) (cut : Str → List Str) (maxLen : Nat)
    {fuel fuel2 : Nat} (hle : fuel ≤ fuel2) {text : Str} {r : List Str}
    (h : wrapTextFuel isCh cut maxLen fuel text = some r) :
    wrapTextFuel isCh cut maxLen fuel2 text = some r := by
  induction fuel2 with
  | zero =>
    have : fuel = 0 := by omega
    subst this
    exact h
  | succ n ih =>
    by_cases he : fuel = n + 1
    · subst he; exact h
    · exact wrapTextFuel_mono_succ isCh cut maxLen n text r (ih (by omega))

theorem wrapTextFuel_step_false_some (cut : Str → List Str) (maxLen fuel : Nat)
    (text : Str) (rest : List Str) (hnil : text ≠ []) (hgt : maxLen < text.length)
    (hw : wrapTextFuel false cut maxLen fuel
      (jsTrim (text.drop
        (if spaceScan text maxLen = 0 then maxLen else spaceScan text maxLen))) = some rest) :
    wrapTextFuel false cut maxLen (fuel + 1) text =
      some (jsTrim (text.take
        (if spaceScan text maxLen = 0 then maxLen else spaceScan text maxLen)) :: rest) := by
  unfold wrapTextFuel
  rw [if_neg hnil, if_neg (by omega)]
  simp only [Bool.false_eq_true, if_false]
  rw [hw]

theorem wrapTextFuel_terminates_false (cut : Str → List Str) (maxLen : Nat)
    (hpos : 0 < maxLen) :
    ∀ (n : Nat) (text : Str), text.length ≤ n →
      ∃ r, wrapTextFuel false cut maxLen (text.length + 1) text = some r := by
  intro n
  induction n with
  | zero =>
    intro text hlen
    have hnil : text = [] := List.length_eq_zero.mp (by omega)
    subst hnil
    exact ⟨[], rfl⟩
  | succ n ih =>
    intro text hlen
    by_cases hnil : text = []
    · subst hnil; exact ⟨[], rfl⟩
    · by_cases hle : text.length ≤ maxLen
      · refine ⟨[text], ?_⟩
        unfold wrapTextFuel
        rw [if_neg hnil, if_pos hle]
      · push_neg at hle
        set si := if spaceScan text maxLen = 0 then maxLen else spaceScan text maxLen with hsi
        have hsi1 : 1 ≤ si := by
          rw [hsi]
          by_cases hs : spaceScan text maxLen = 0
          · rw [if_pos hs]; omega
          · rw [if_neg hs]; omega
        have hlen1 : text.length ≠ 0 := by
          intro h0; exact hnil (List.length_eq_zero.mp h0)
        have hlt : (jsTrim (text.drop si)).length + 1 ≤ text.length := by
          have h1 := jsTrim_length_le (text.drop si)
          rw [List.length_drop] at h1
          omega
        obtain ⟨r, hr⟩ := ih (jsTrim (text.drop si)) (by omega)
        have hr2 : wrapTextFuel false cut maxLen text.length (jsTrim (text.drop si)) = some r :=
          wrapTextFuel_mono false cut maxLen (by omega) hr
        refine ⟨jsTrim (text.take si) :: r, ?_⟩
        rw [hsi] at hr2
        exact wrapTextFuel_step_false_some cut maxLen text.length text r hnil hle hr2

/-- In the Chinese mode, a segmentation whose first word is longer than the
line width makes `findChineseWordBoundary` return 0, so `wrapText` removes
nothing and loops forever: with width 1 and the two-character word
`['你', '好']` segmented as a single word, no fuel amount returns. -/
theorem wrapTextChinese_diverges :
    ∀ (fuel : Nat), wrapTextFuel true (fun s => [s]) 1 fuel ['你', '好'] = none := by
  intro fuel
  induction fuel with
  | zero => rfl
  | succ n ih =>
    have hstep : wrapTextFuel true (fun s => [s]) 1 (n + 1) ['你', '好'] =
        match wrapTextFuel true (fun s => [s]) 1 n ['你', '好'] with
        | none => none
        | some rest => some ([] :: rest) := rfl
    rw [hstep, ih]

/-! ### History lemmas -/

theorem addToTranscriptHistory_blank (c : Nat) (h : List Str) (t : Str)
    (hb : jsTrim t = []) : addToTranscriptHistory c h t = h := by
  unfold addToTranscriptHistory
  rw [if_pos hb]

theorem addToTranscriptHistory_eq (c : Nat) (h : List Str) (t : Str)
    (hb : jsTrim t ≠ []) :
    addToTranscriptHistory c h t = (h ++ [t]).drop ((h.length + 1) - c) := by
  unfold addToTranscriptHistory
  rw [if_neg hb, shiftWhileExceeds_eq_drop]
  have hl : (h ++ [t]).length = h.length + 1 := by simp
  rw [hl]

theorem addToTranscriptHistory_of_lt (c : Nat) (h : List Str) (t : Str)
    (hb : jsTrim t ≠ []) (hlen : h.length < c) :
    addToTranscriptHistory c h t = h ++ [t] := by
  rw [addToTranscriptHistory_eq c h t hb]
  rw [show (h.length + 1) - c = 0 by omega, List.drop_zero]

theorem mem_addToTranscriptHistory {c : Nat} {h : List Str} {t e : Str}
    (he : e ∈ addToTranscriptHistory c h t) : e ∈ h ∨ e = t := by
  unfold addToTranscriptHistory at he
  by_cases hb : jsTrim t = []
  · rw [if_pos hb] at he
    exact Or.inl he
  · rw [if_neg hb, shiftWhileExceeds_eq_drop] at he
    have h2 := List.mem_of_mem_drop he
    rcases List.mem_append.mp h2 with h3 | h3
    · exact Or.inl h3
    · exact Or.inr (List.mem_singleton.mp h3)

theorem foldl_addToTranscriptHistory (c : Nat) :
    ∀ (ts : List Str) (h : List Str), (∀ t ∈ ts, jsTrim t ≠ []) → h.length ≤ c →
      List.foldl (addToTranscriptHistory c) h ts =
        (h ++ ts).drop ((h ++ ts).length - c) := by
  intro ts
  induction ts with
  | nil =>
    intro h _ hlen
    simp only [List.foldl_nil, List.append_nil]
    rw [show h.length - c = 0 by omega, List.drop_zero]
  | cons t ts ih =>
    intro h hts hlen
    have ht : jsTrim t ≠ [] := hts t (List.mem_cons_self t ts)
    have hts2 : ∀ x ∈ ts, jsTrim x ≠ [] := fun x hx => hts x (List.mem_cons_of_mem t hx)
    simp only [List.foldl_cons]
    rw [addToTranscriptHistory_eq c h t ht]
    have hlen2 : ((h ++ [t]).drop ((h.length + 1) - c)).length ≤ c := by
      rw [List.length_drop]
      simp only [List.length_append, List.length_cons, List.length_nil]
      omega
    rw [ih _ hts2 hlen2]
    have hk : (h.length + 1) - c ≤ (h ++ [t]).length := by
      simp only [List.length_append, List.length_cons, List.length_nil]
      omega
    rw [← List.drop_append_of_le_length hk, List.drop_drop]
    have harr : (h ++ [t]) ++ ts = h ++ t :: ts := by simp
    rw [harr]
    congr 1
    rw [List.length_drop]
    simp only [List.length_append, List.length_cons, List.length_nil]
    omega

/-! ### Shape of processString -/

theorem processString_partial_eq (cut : Str → List Str) (st : ProcState)
    (newTextIn : Option Str) :
    processString cut st newTextIn false =
      match wrapTextFuel st.isChinese cut st.maxCharsPerLine
          ((getCombinedTranscriptHistory st.finalTranscriptHistory ++
            ' ' :: (match newTextIn with | none => [] | some s => jsTrim s)).length + 1)
          (getCombinedTranscriptHistory st.finalTranscriptHistory ++
            ' ' :: (match newTextIn with | none => [] | some s => jsTrim s)) with
      | none => none
      | some wrapped =>
        some ({ st with
                  partialText := match newTextIn with | none => [] | some s => jsTrim s
                  lastUserTranscript := match newTextIn with | none => [] | some s => jsTrim s
                  currentDisplayLines := ensureMaxLines st.maxLines wrapped },
              joinSep '\n' (ensureMaxLines st.maxLines wrapped)) := by
  unfold processString
  rw [if_pos (by simp)]

theorem processString_final_eq (cut : Str → List Str) (st : ProcState) (t : Str) :
    processString cut st (some t) true =
      match wrapTextFuel st.isChinese cut st.maxCharsPerLine
          ((getCombinedTranscriptHistory (addToTranscriptHistory st.maxFinalTranscripts
            st.finalTranscriptHistory (jsTrim t))).length + 1)
          (getCombinedTranscriptHistory (addToTranscriptHistory st.maxFinalTranscripts
            st.finalTranscriptHistory (jsTrim t))) with
      | none => none
      | some wrapped =>
        some ({ st with
                  partialText := []
                  finalTranscriptHistory := addToTranscriptHistory st.maxFinalTranscripts
                    st.finalTranscriptHistory (jsTrim t)
                  currentDisplayLines := ensureMaxLines st.maxLines wrapped },
              joinSep '\n' (ensureMaxLines st.maxLines wrapped)) := by
  unfold processString
  rw [if_neg (by simp)]

theorem not_mem_joinSep {c sep : Char} {ls : List Str} (hc : c ≠ sep)
    (h : ∀ l ∈ ls, c ∉ l) : c ∉ joinSep sep ls := by
  intro hmem
  rcases mem_joinSep sep ls c hmem with h1 | ⟨l, hl, hcl⟩
  · exact hc h1
  · exact h l hl hcl

theorem jsSplit_length_ensure (m : Nat) (wrapped : List Str) (hm : 1 ≤ m)
    (hnl : ∀ l ∈ wrapped, '\n' ∉ l) :
    (jsSplit '\n' (joinSep '\n' (ensureMaxLines m wrapped))).length = m := by
  have hne : ensureMaxLines m wrapped ≠ [] := by
    intro h0
    have hlen := length_ensureMaxLines m wrapped
    rw [h0] at hlen
    simp at hlen
    omega
  have hnl2 : ∀ l ∈ ensureMaxLines m wrapped, '\n' ∉ l := by
    intro l hl
    rcases mem_ensureMaxLines hl with h1 | h1
    · exact hnl l h1
    · subst h1; simp
  rw [jsSplit_joinSep '\n' (ensureMaxLines m wrapped) hne hnl2]
  exact length_ensureMaxLines m wrapped

theorem processString_final_fields (cut : Str → List Str) (st : ProcState)
    (t : Str) {st2 : ProcState} {out : Str}
    (h : processString cut st (some t) true = some (st2, out)) :
    st2.finalTranscriptHistory =
      addToTranscriptHistory st.maxFinalTranscripts st.finalTranscriptHistory (jsTrim t) ∧
    st2.maxCharsPerLine = st.maxCharsPerLine ∧ st2.maxLines = st.maxLines ∧
    st2.maxFinalTranscripts = st.maxFinalTranscripts ∧ st2.isChinese = st.isChinese := by
  rw [processString_final_eq] at h
  cases hw : wrapTextFuel st.isChinese cut st.maxCharsPerLine
      ((getCombinedTranscriptHistory (addToTranscriptHistory st.maxFinalTranscripts
        st.finalTranscriptHistory (jsTrim t))).length + 1)
      (getCombinedTranscriptHistory (addToTranscriptHistory st.maxFinalTranscripts
        st.finalTranscriptHistory (jsTrim t))) with
  | none => rw [hw] at h; cases h
  | some wrapped =>
    rw [hw] at h
    simp only [Option.some.injEq, Prod.mk.injEq] at h
    obtain ⟨h1, h2⟩ := h
    subst h1
    exact ⟨rfl, rfl, rfl, rfl, rfl⟩

theorem replayHistory_preserves (cut : Str → List Str) :
    ∀ (ts : List Str) (st : ProcState),
      (∀ e ∈ ts, jsTrim e = e ∧ e ≠ []) →
      st.finalTranscriptHistory.length + ts.length ≤ st.maxFinalTranscripts →
      ∀ st2, replayHistory cut st ts = some st2 →
        st2.finalTranscriptHistory = st.finalTranscriptHistory ++ ts ∧
        st2.maxFinalTranscripts = st.maxFinalTranscripts := by
  intro ts
  induction ts with
  | nil =>
    intro st _ _ st2 h
    unfold replayHistory at h
    injection h with h1
    subst h1
    exact ⟨by simp, rfl⟩
  | cons t ts ih =>
    intro st hts hlen st2 h
    unfold replayHistory at h
    cases hp : processString cut st (some t) true with
    | none => rw [hp] at h; cases h
    | some q =>
      obtain ⟨st1, out1⟩ := q
      rw [hp] at h
      obtain ⟨ht1, ht2⟩ := hts t (List.mem_cons_self t ts)
      have hf := processString_final_fields cut st t hp
      have hnb : jsTrim t ≠ [] := by rw [ht1]; exact ht2
      have hhist1 : st1.finalTranscriptHistory = st.finalTranscriptHistory ++ [t] := by
        rw [hf.1, ht1]
        exact addToTranscriptHistory_of_lt st.maxFinalTranscripts
          st.finalTranscriptHistory t hnb (by simp at hlen; omega)
      have hts2 : ∀ e ∈ ts, jsTrim e = e ∧ e ≠ [] :=
        fun e he => hts e (List.mem_cons_of_mem t he)
      have hlen2 : st1.finalTranscriptHistory.length + ts.length ≤ st1.maxFinalTranscripts := by
        rw [hhist1, hf.2.2.2.1]
        simp only [List.length_append, List.length_cons, List.length_nil]
        simp only [List.length_cons] at hlen
        omega
      obtain ⟨hh, hm⟩ := ih st1 hts2 hlen2 st2 h
      constructor
      · rw [hh, hhist1]
        simp
      · rw [hm, hf.2.2.2.1]

/-! ### Claim theorems -/

/-- C2 (confirmed): for every input text, width > 0 and both segmentation
modes (and any segmenter `cut`), every line produced by `wrapText` has
character length at most `maxCharsPerLine`; unbroken tokens longer than the
width are force-split, so every emitted piece also obeys the bound. -/
theorem c2_wrap_width_bound (isCh : Bool) (cut : Str → List Str)
    (maxLen fuel : Nat) (text : Str) (r : List Str) (_hpos : 0 < maxLen)
    (h : wrapTextFuel isCh cut maxLen fuel text = some r) :
    ∀ l ∈ r, l.length ≤ maxLen :=
  wrapTextFuel_width_le isCh cut maxLen fuel text r h

theorem c2_wrap_width_bound_witness : (['a', 'b'] : Str).length ≤ 2 :=
  c2_wrap_width_bound false (fun s => [s]) 2 5 ['a', 'b', ' ', 'c']
    [['a', 'b'], ['c']] (by decide) (by decide) ['a', 'b'] (by decide)

/-- C3 (code bug): in whitespace mode `wrapText` does terminate with fuel
`text.length + 1` (each iteration removes a non-empty prefix, force-splitting
at the width when no space is in range), but in the logographic mode the
force-split fallback is missing: when the segmenter returns a first word
longer than the width, `findChineseWordBoundary` returns 0, the loop removes
nothing, and `wrapText` never terminates — no fuel amount returns a result on
the two-character word `['你', '好']` at width 1. -/
theorem c3_wrap_termination :
    (∀ (cut : Str → List Str) (maxLen : Nat) (text : Str), 0 < maxLen →
      (wrapTextFuel false cut maxLen (text.length + 1) text).isSome = true) ∧
    (∀ fuel : Nat, wrapTextFuel true (fun s => [s]) 1 fuel ['你', '好'] = none) := by
  constructor
  · intro cut maxLen text hpos
    obtain ⟨r, hr⟩ := wrapTextFuel_terminates_false cut maxLen hpos text.length text le_rfl
    rw [hr]
    rfl
  · exact wrapTextChinese_diverges

theorem c3_wrap_termination_witness :
    (wrapTextFuel false (fun s => [s]) 2 5 ['a', 'b', ' ', 'c']).isSome = true ∧
    wrapTextFuel true (fun s => [s]) 1 3 ['你', '好'] = none :=
  ⟨c3_wrap_termination.1 (fun s => [s]) 2 ['a', 'b', ' ', 'c'] (by decide),
   c3_wrap_termination.2 3⟩

/-- C4 (confirmed): with capacity `c > 0`, appending `c + k` non-blank final
transcripts leaves exactly the `c` most recent in insertion order (oldest
evicted first); blank transcripts are never added; and lowering the capacity
trims the oldest entries down to the new capacity immediately. -/
theorem c4_history_bounded (c k : Nat) (ts : List Str)
    (_hc : 0 < c) (hk : 0 < k) (hlen : ts.length = c + k)
    (hnb : ∀ t ∈ ts, jsTrim t ≠ []) :
    List.foldl (addToTranscriptHistory c) [] ts = ts.drop k ∧
    (∀ (h : List Str) (t : Str), jsTrim t = [] → addToTranscriptHistory c h t = h) ∧
    (∀ (n : Nat) (h : List Str),
      setMaxFinalTranscriptsHistory n h = h.drop (h.length - n)) := by
  refine ⟨?_, ?_, ?_⟩
  · rw [foldl_addToTranscriptHistory c ts [] hnb (by simp)]
    simp only [List.nil_append]
    rw [hlen]
    congr 1
    omega
  · exact fun h t hb => addToTranscriptHistory_blank c h t hb
  · exact fun n h => shiftWhileExceeds_eq_drop n h

theorem c4_history_bounded_witness :
    List.foldl (addToTranscriptHistory 2) [] [['a'], ['b'], ['c']] =
      [['a'], ['b'], ['c']].drop 1 :=
  (c4_history_bounded 2 1 [['a'], ['b'], ['c']] (by decide) (by decide)
    (by decide) (by decide)).1

/-- C6 (amended): when the inactivity timer fires, the transcript history and
the pending partial text become empty and the display sink receives exactly
one update — but that update is the empty string passed to `showTextWall`,
not `maxLines` newline-joined blank lines (see the counterexample). -/
theorem c6_inactivity_clear (st : ProcState) :
    (inactivityFire st).1.finalTranscriptHistory = [] ∧
    (inactivityFire st).1.partialText = [] ∧
    (inactivityFire st).2 = [] :=
  ⟨rfl, rfl, rfl⟩

/-- C6 counterexample: for a processor with `maxLines = 3`, the inactivity
emission is the empty string, which differs from the 3 newline-joined blank
lines the claim describes. -/
theorem c6_blank_lines_counterexample :
    (inactivityFire (initProcessor 30 3 30 false)).2 ≠
      joinSep '\n' (List.replicate (initProcessor 30 3 30 false).maxLines []) := by
  decide

/-- C8 (amended): a `null` transcript text is treated as the empty string and
processing returns normally, with exactly the behavior of the empty string;
an `undefined` text, by contrast, throws a TypeError (see counterexample). -/
theorem c8_null_text (cut : Str → List Str) (st : ProcState) (isFinal : Bool) :
    processStringJS cut st JSText.jsNull isFinal =
      Except.ok (processString cut st (some []) isFinal) := rfl

/-- C8 counterexample: an `undefined` transcript text is not treated as the
empty string — the `newText.trim()` call throws a TypeError, which the claim
says never happens. -/
theorem c8_undefined_counterexample :
    processStringJS (fun s => [s]) (initProcessor 30 3 30 false)
      JSText.jsUndefined true = Except.error ("TypeError".toList) := rfl

/-- C9 (confirmed): processing an empty final transcript twice in a row
yields identical output both times, from any processor state: the blank final
is never added to the history, so the second call recomputes the same display
from the same history. -/
theorem c9_empty_final_idempotent (cut : Str → List Str) (st : ProcState) :
    ((processString cut st (some []) true).bind
      (fun p => (processString cut p.1 (some []) true).map Prod.snd)) =
    (processString cut st (some []) true).map Prod.snd := by
  rw [processString_final_eq cut st []]
  rw [addToTranscriptHistory_blank st.maxFinalTranscripts st.finalTranscriptHistory (jsTrim []) rfl]
  cases hw : wrapTextFuel st.isChinese cut st.maxCharsPerLine
      ((getCombinedTranscriptHistory st.finalTranscriptHistory).length + 1)
      (getCombinedTranscriptHistory st.finalTranscriptHistory) with
  | none => rfl
  | some wrapped =>
    show (processString cut _ (some []) true).map Prod.snd = _
    rw [processString_final_eq]
    dsimp only
    rw [addToTranscriptHistory_blank st.maxFinalTranscripts st.finalTranscriptHistory (jsTrim []) rfl]
    rw [hw]

/-- C10 (confirmed): a non-final call leaves the final-transcript history
unchanged — whenever processing returns, the new state carries exactly the
old history. -/
theorem c10_nonfinal_history_frame (cut : Str → List Str) (st : ProcState)
    (newTextIn : Option Str) :
    (processString cut st newTextIn false).map (fun p => p.1.finalTranscriptHistory) =
    (processString cut st newTextIn false).map (fun _ => st.finalTranscriptHistory) := by
  rw [processString_partial_eq]
  cases hw : wrapTextFuel st.isChinese cut st.maxCharsPerLine
      ((getCombinedTranscriptHistory st.finalTranscriptHistory ++
        ' ' :: (match newTextIn with | none => [] | some s => jsTrim s)).length + 1)
      (getCombinedTranscriptHistory st.finalTranscriptHistory ++
        ' ' :: (match newTextIn with | none => [] | some s => jsTrim s)) with
  | none => rfl
  | some wrapped => rfl

/-- C1 (amended): for every session and every processed transcription event
(partial or final) whose text and history entries contain no newline, the
display string computed by `processString` consists of exactly `maxLines`
newline-joined lines — padded with empty strings at the end, oldest lines
dropped first.  The string handed to the display sink, however, is
`cleanTranscriptText` of it, whose trailing trim can delete the blank padding
lines (see the counterexample). -/
theorem c1_display_line_count (cut : Str → List Str) (st : ProcState)
    (t : Str) (isFinal : Bool)
    (hml : 1 ≤ st.maxLines)
    (hhist : ∀ e ∈ st.finalTranscriptHistory, '\n' ∉ e)
    (ht : '\n' ∉ t) :
    (processString cut st (some t) isFinal).map
        (fun p => (jsSplit '\n' p.2).length) =
    (processString cut st (some t) isFinal).map (fun _ => st.maxLines) := by
  cases isFinal with
  | false =>
    rw [processString_partial_eq]
    cases hw : wrapTextFuel st.isChinese cut st.maxCharsPerLine
        ((getCombinedTranscriptHistory st.finalTranscriptHistory ++
          ' ' :: (match (some t : Option Str) with | none => [] | some s => jsTrim s)).length + 1)
        (getCombinedTranscriptHistory st.finalTranscriptHistory ++
          ' ' :: (match (some t : Option Str) with | none => [] | some s => jsTrim s)) with
    | none => rfl
    | some wrapped =>
      have hcomb : '\n' ∉ getCombinedTranscriptHistory st.finalTranscriptHistory ++
          ' ' :: jsTrim t := by
        intro hmem
        rcases List.mem_append.mp hmem with h1 | h1
        · exact not_mem_joinSep (by decide) hhist h1
        · rcases List.mem_cons.mp h1 with h2 | h2
          · exact absurd h2 (by decide)
          · exact ht (mem_jsTrim h2)
      have hnl : ∀ l ∈ wrapped, '\n' ∉ l := fun l hl hcl =>
        hcomb (wrapTextFuel_chars st.isChinese cut st.maxCharsPerLine _ _ wrapped hw l hl '\n' hcl)
      show some ((jsSplit '\n' (joinSep '\n' (ensureMaxLines st.maxLines wrapped))).length) =
        some st.maxLines
      rw [jsSplit_length_ensure st.maxLines wrapped hml hnl]
  | true =>
    rw [processString_final_eq]
    cases hw : wrapTextFuel st.isChinese cut st.maxCharsPerLine
        ((getCombinedTranscriptHistory (addToTranscriptHistory st.maxFinalTranscripts
          st.finalTranscriptHistory (jsTrim t))).length + 1)
        (getCombinedTranscriptHistory (addToTranscriptHistory st.maxFinalTranscripts
          st.finalTranscriptHistory (jsTrim t))) with
    | none => rfl
    | some wrapped =>
      have hcomb : '\n' ∉ getCombinedTranscriptHistory (addToTranscriptHistory
          st.maxFinalTranscripts st.finalTranscriptHistory (jsTrim t)) := by
        apply not_mem_joinSep (by decide)
        intro l hl
        rcases mem_addToTranscriptHistory hl with h1 | h1
        · exact hhist l h1
        · subst h1
          intro hc
          exact ht (mem_jsTrim hc)
      have hnl : ∀ l ∈ wrapped, '\n' ∉ l := fun l hl hcl =>
        hcomb (wrapTextFuel_chars st.isChinese cut st.maxCharsPerLine _ _ wrapped hw l hl '\n' hcl)
      show some ((jsSplit '\n' (joinSep '\n' (ensureMaxLines st.maxLines wrapped))).length) =
        some st.maxLines
      rw [jsSplit_length_ensure st.maxLines wrapped hml hnl]

theorem c1_display_line_count_witness :
    (processString (fun s => [s]) (initProcessor 30 3 30 false)
        (some ['h', 'i']) false).map (fun p => (jsSplit '\n' p.2).length) = some 3 :=
  Eq.trans
    (c1_display_line_count (fun s => [s]) (initProcessor 30 3 30 false) ['h', 'i'] false
      (by decide) (by decide) (by decide))
    (by decide)

/-- C1 counterexample: on a fresh session with `maxLines = 3`, an empty final
event makes `processString` return three newline-joined empty lines, but
`showTranscriptsToUser` trims the string before handing it to the display
sink, so the sink receives a string that splits into one line, not three. -/
theorem c1_sink_counterexample :
    (processString (fun s => [s]) (initProcessor 30 3 30 false) (some []) true).map
        (fun p => (jsSplit '\n' (showTranscriptsToUser p.2)).length) = some 1 ∧
    (1 : Nat) ≠ (initProcessor 30 3 30 false).maxLines := by
  decide

/-- C5 (confirmed): if a second non-final update arrives within the 400 ms
debounce interval of the last emission, the second update emits nothing
immediately, the pending trailing-edge timer is replaced so it carries the
second (latest) content, the timer cannot fire before the interval has
elapsed, and when it fires it emits exactly the second update's content. -/
theorem c5_debounce_latest (d : Debouncer) (t1 t2 : Nat) (s1 s2 : Str)
    (_h12 : t1 ≤ t2)
    (hle : (debounceStep t1 s1 false d).1.lastSentTime ≤ t2)
    (hlt : t2 < (debounceStep t1 s1 false d).1.lastSentTime + debounceDelay) :
    (debounceStep t2 s2 false (debounceStep t1 s1 false d).1).2 = none ∧
    (debounceStep t2 s2 false (debounceStep t1 s1 false d).1).1.timer =
      some (t2 + debounceDelay, s2) ∧
    (debounceStep t1 s1 false d).1.lastSentTime + debounceDelay ≤ t2 + debounceDelay ∧
    (fireTimer (debounceStep t2 s2 false (debounceStep t1 s1 false d).1).1).2 = some s2 ∧
    (debounceStep t2 s2 false (debounceStep t1 s1 false d).1).1.lastSentTime =
      (debounceStep t1 s1 false d).1.lastSentTime := by
  generalize hd1 : (debounceStep t1 s1 false d).1 = d1 at *
  have hcond : ¬ (debounceDelay ≤ t2 - d1.lastSentTime) := by omega
  have hstep : debounceStep t2 s2 false d1 =
      ({ lastSentTime := d1.lastSentTime, timer := some (t2 + debounceDelay, s2) }, none) := by
    unfold debounceStep
    rw [if_neg (by simp)]
    dsimp only
    rw [if_neg hcond]
  rw [hstep]
  exact ⟨rfl, rfl, by omega, rfl, rfl⟩

theorem c5_debounce_latest_witness :
    (fireTimer (debounceStep 500 ['t', 'w', 'o'] false
        (debounceStep 400 ['o', 'n', 'e'] false
          { lastSentTime := 0, timer := none }).1).1).2 = some ['t', 'w', 'o'] :=
  (c5_debounce_latest { lastSentTime := 0, timer := none } 400 500
    ['o', 'n', 'e'] ['t', 'w', 'o'] (by decide) (by decide) (by decide)).2.2.2.1

/-- C7 (confirmed): on a settings change, if the language changed the new
processor starts with an empty history (cleared); if it did not change, every
prior history entry is replayed through the newly configured processor and the
history is preserved; in both cases the recomputed display is immediately
emitted as a final update. -/
theorem c7_settings_change (cut : Str → List Str) (p : ProcState)
    (lineWidth numberOfLines : Nat) (isCh : Bool) :
    (∀ st out fin,
      applySettings cut true (some p) lineWidth numberOfLines isCh = some (st, out, fin) →
        st.finalTranscriptHistory = [] ∧ fin = true) ∧
    ((∀ e ∈ p.finalTranscriptHistory, jsTrim e = e ∧ e ≠ []) →
      p.finalTranscriptHistory.length ≤ MAX_FINAL_TRANSCRIPTS →
      ∀ st out fin,
        applySettings cut false (some p) lineWidth numberOfLines isCh = some (st, out, fin) →
          st.finalTranscriptHistory = p.finalTranscriptHistory ∧ fin = true) := by
  constructor
  · intro st out fin h
    unfold applySettings at h
    dsimp only at h
    cases hp : processString cut
        (initProcessor lineWidth numberOfLines MAX_FINAL_TRANSCRIPTS isCh) (some []) true with
    | none => rw [hp] at h; cases h
    | some q =>
      obtain ⟨st1, out1⟩ := q
      rw [hp] at h
      simp only [Option.some.injEq, Prod.mk.injEq] at h
      obtain ⟨h1, h2, h3⟩ := h
      subst h1
      refine ⟨?_, h3.symm⟩
      have hf := processString_final_fields cut _ [] hp
      rw [hf.1, addToTranscriptHistory_blank _ _ (jsTrim []) rfl]
      rfl
  · intro hent hlen st out fin h
    unfold applySettings at h
    dsimp only at h
    cases hr : replayHistory cut
        (initProcessor lineWidth numberOfLines MAX_FINAL_TRANSCRIPTS isCh)
        p.finalTranscriptHistory with
    | none => rw [hr] at h; cases h
    | some proc =>
      rw [hr] at h
      dsimp only at h
      have hpre := replayHistory_preserves cut p.finalTranscriptHistory _ hent
        (by simpa [initProcessor] using hlen) proc hr
      cases hp : processString cut proc (some []) true with
      | none => rw [hp] at h; cases h
      | some q =>
        obtain ⟨st1, out1⟩ := q
        rw [hp] at h
        simp only [Option.some.injEq, Prod.mk.injEq] at h
        obtain ⟨h1, h2, h3⟩ := h
        subst h1
        refine ⟨?_, h3.symm⟩
        have hf := processString_final_fields cut proc [] hp
        rw [hf.1, addToTranscriptHistory_blank _ _ (jsTrim []) rfl, hpre.1]
        simp [initProcessor]

theorem c7_settings_change_witness :
    ({ maxCharsPerLine := 5, maxLines := 1, maxFinalTranscripts := 30,
       isChinese := false, lines := [], partialText := [], lastUserTranscript := [],
       finalTranscriptHistory := [['h', 'i']],
       currentDisplayLines := [['h', 'i']] } : ProcState).finalTranscriptHistory =
      ({ initProcessor 5 1 30 false with
          finalTranscriptHistory := [['h', 'i']] } : ProcState).finalTranscriptHistory ∧
    (true : Bool) = true :=
  (c7_settings_change (fun s => [s])
      { initProcessor 5 1 30 false with finalTranscriptHistory := [['h', 'i']] }
      5 1 false).2 (by decide) (by decide) _ ['h', 'i'] true (by decide)

end LiveCaptions
